import Mathlib

set_option maxHeartbeats 1000000
set_option maxRecDepth 4000

/-!
Verification of the CAN signal codec (`TesterSignal.generate_can_message`,
`TesterSignal.decode_can_message`) and the CSV variable loader
(`TemplateEngine.load_variables_from_csv`) of `tester_template_engine.py`.

The Python code is shallowly embedded: strings are `List Char`, Python
arbitrary-precision integers are `Nat`/`Int`, `ValueError`/`IndexError`
outcomes are an explicit error type, and the two `re.match` calls are
embedded as deterministic greedy matchers (for every `+`-class of these
regexes the character that follows it in the pattern never belongs to the
class, so greedy matching without backtracking coincides with the regex
engine; `re.match` anchors at the start of the string only, so trailing
unmatched text is permitted).
-/

/-- Characters of the regex class `[0-9]`. -/
def isDigitPy (c : Char) : Bool := '0' ≤ c && c ≤ '9'

/-- Characters of the regex class `[0-9A-Fa-f]`. -/
def isHexDigitPy (c : Char) : Bool :=
  ('0' ≤ c && c ≤ '9') || ('A' ≤ c && c ≤ 'F') || ('a' ≤ c && c ≤ 'f')

/-- Consume one literal character of the regex pattern (`0`, `x`, `,`, `.`, `-`, `=`). -/
def expectChar (c : Char) : List Char → Option (List Char)
  | [] => none
  | x :: r => if x = c then some r else none

/-- Greedy nonempty munch for a `+`-quantified character class. -/
def munch1 (p : Char → Bool) (cs : List Char) : Option (List Char × List Char) :=
  match cs.span p with
  | ([], _) => none
  | (tok, rest) => some (tok, rest)

/-- Numeric value of one hexadecimal digit (either case). -/
def hexDigitVal (c : Char) : Nat :=
  if '0' ≤ c && c ≤ '9' then c.toNat - '0'.toNat
  else if 'A' ≤ c && c ≤ 'F' then c.toNat - 'A'.toNat + 10
  else c.toNat - 'a'.toNat + 10

/-- Value of `int(s)` on a string of decimal digits, as produced by a `[0-9]+` group. -/
def decVal (cs : List Char) : Nat := cs.foldl (fun a c => a * 10 + (c.toNat - '0'.toNat)) 0

/-- Value of `int(s, 16)` on a string of hexadecimal digits. -/
def hexVal (cs : List Char) : Nat := cs.foldl (fun a c => a * 16 + hexDigitVal c) 0

/-- Capture groups of the packing regex
`(0x[0-9A-Fa-f]+),([0-9]+)\.([0-9]+)-([0-9]+)\.([0-9]+)=(0x[0-9A-Fa-f]+)`
after the `int` conversions of `generate_can_message` (lines 48-54), except
that the 1-based byte indexes are kept unshifted here (`- 1` is applied at use
sites, as the source does).  `canId` keeps the text of group 1 verbatim, hex
mark included. -/
structure ParsedSpec where
  canId : List Char
  startByte : Nat
  startBit : Nat
  endByte : Nat
  endBit : Nat
  value : Nat
deriving DecidableEq, Repr

/-- Anchored-at-start match of the packing regex (`re.match`, line 41); returns
the converted groups and the unconsumed remainder of the input. -/
def matchPackSpecR (cs : List Char) : Option (ParsedSpec × List Char) :=
  match expectChar '0' cs with
  | none => none
  | some cs =>
  match expectChar 'x' cs with
  | none => none
  | some cs =>
  match munch1 isHexDigitPy cs with
  | none => none
  | some (idDigits, cs) =>
  match expectChar ',' cs with
  | none => none
  | some cs =>
  match munch1 isDigitPy cs with
  | none => none
  | some (sb, cs) =>
  match expectChar '.' cs with
  | none => none
  | some cs =>
  match munch1 isDigitPy cs with
  | none => none
  | some (sbit, cs) =>
  match expectChar '-' cs with
  | none => none
  | some cs =>
  match munch1 isDigitPy cs with
  | none => none
  | some (eb, cs) =>
  match expectChar '.' cs with
  | none => none
  | some cs =>
  match munch1 isDigitPy cs with
  | none => none
  | some (ebit, cs) =>
  match expectChar '=' cs with
  | none => none
  | some cs =>
  match expectChar '0' cs with
  | none => none
  | some cs =>
  match expectChar 'x' cs with
  | none => none
  | some cs =>
  match munch1 isHexDigitPy cs with
  | none => none
  | some (valDigits, cs) =>
    some (⟨'0' :: 'x' :: idDigits, decVal sb, decVal sbit, decVal eb, decVal ebit,
           hexVal valDigits⟩, cs)

/-- Group values of the packing regex match, when it succeeds. -/
def matchPackSpec (cs : List Char) : Option ParsedSpec := (matchPackSpecR cs).map Prod.fst

/-- Reading of the spec's input grammar
`<hex_id>,<byte>.<bit>-<byte>.<bit>=<hex_value>` as a complete-string grammar:
the whole text must be an utterance of the grammar, with no trailing characters.
Compared against the code's `re.match`, which anchors at the start only. -/
def fullPackGrammarMatch (cs : List Char) : Bool :=
  match matchPackSpecR cs with
  | some (_, []) => true
  | _ => false

/-- Capture groups of the extraction regex
`([0-9]+)\.([0-9]+)-([0-9]+)\.([0-9]+)` (line 119) after `int` conversion,
byte indexes again kept 1-based here. -/
structure ExtractSpec where
  startByte : Nat
  startBit : Nat
  endByte : Nat
  endBit : Nat
deriving DecidableEq, Repr

/-- Anchored-at-start match of the extraction regex with its remainder. -/
def matchExtractSpecR (cs : List Char) : Option (ExtractSpec × List Char) :=
  match munch1 isDigitPy cs with
  | none => none
  | some (sb, cs) =>
  match expectChar '.' cs with
  | none => none
  | some cs =>
  match munch1 isDigitPy cs with
  | none => none
  | some (sbit, cs) =>
  match expectChar '-' cs with
  | none => none
  | some cs =>
  match munch1 isDigitPy cs with
  | none => none
  | some (eb, cs) =>
  match expectChar '.' cs with
  | none => none
  | some cs =>
  match munch1 isDigitPy cs with
  | none => none
  | some (ebit, cs) =>
    some (⟨decVal sb, decVal sbit, decVal eb, decVal ebit⟩, cs)

/-- Group values of the extraction regex match, when it succeeds. -/
def matchExtractSpec (cs : List Char) : Option ExtractSpec :=
  (matchExtractSpecR cs).map Prod.fst

/-- Python list subscript resolution for a list of length `len`: nonnegative
indexes address from the front, negative indexes from the back, anything else
is an `IndexError` (`none`). -/
def pyIndex (len : Nat) (i : Int) : Option Nat :=
  if 0 ≤ i then (if i < (len : Int) then some i.toNat else none)
  else if 0 ≤ i + (len : Int) then some (i + (len : Int)).toNat else none

/-- Read-modify-write of one Python list cell, as in `msg_data[byte_idx] |= m`. -/
def pyModifyByte (l : List Nat) (i : Int) (g : Nat → Nat) : Option (List Nat) :=
  match pyIndex l.length i with
  | some k => some (l.set k (g (l.getD k 0)))
  | none => none

/-- Read of one Python list cell, as in `data_bytes[byte_idx]`. -/
def pyGetInt (l : List Int) (i : Int) : Option Int :=
  match pyIndex l.length i with
  | some k => some (l.getD k 0)
  | none => none

/-- Truth value of `b & (1 << i) != 0` for a Python integer `b`
(arbitrary-precision two's complement: bit `i` of a negative `b` is the
complement of bit `i` of `-b - 1`). -/
def intTestBit (b : Int) (i : Nat) : Bool :=
  if 0 ≤ b then b.toNat.testBit i else !((-b - 1).toNat.testBit i)

/-- Digit automaton for `int(_, 16)`: consumes hexadecimal digits with single
underscores allowed strictly between digits; `u` records whether the previous
character was an underscore. -/
def hexRun (acc : Nat) (u : Bool) : List Char → Option Nat
  | [] => if u then none else some acc
  | c :: r =>
    if c = '_' then (if u then none else hexRun acc true r)
    else if isHexDigitPy c then hexRun (acc * 16 + hexDigitVal c) false r
    else none

/-- Start of the digit run of `int(_, 16)`: at least one hexadecimal digit. -/
def hexRunStart : List Char → Option Nat
  | [] => none
  | c :: r => if isHexDigitPy c then hexRun (hexDigitVal c) false r else none

/-- Magnitude part of `int(_, 16)`: an optional `0x`/`0X` base mark (an
underscore may directly follow the mark), then the digit run. -/
def pyIntHexCore : List Char → Option Nat
  | '0' :: 'x' :: '_' :: r => hexRunStart r
  | '0' :: 'x' :: r => hexRunStart r
  | '0' :: 'X' :: '_' :: r => hexRunStart r
  | '0' :: 'X' :: r => hexRunStart r
  | cs => hexRunStart cs

/-- Value of `int(token, 16)` on a whitespace-free token (as produced by
`str.split()`; `int` would additionally strip surrounding whitespace, which a
`split()` token cannot contain): an optional sign, then the magnitude. -/
def pyIntHex (cs : List Char) : Option Int :=
  match cs with
  | '+' :: r => (pyIntHexCore r).map (fun n => (n : Int))
  | '-' :: r => (pyIntHexCore r).map (fun n => -(n : Int))
  | r => (pyIntHexCore r).map (fun n => (n : Int))

/-- ASCII whitespace recognized by `str.split()` (the Python method also
splits on other Unicode whitespace, which no claim exercises). -/
def isSpacePy (c : Char) : Bool :=
  c = ' ' || c = '\t' || c = '\n' || c = '\r' || c = '\x0b' || c = '\x0c'

/-- Accumulator pass of `str.split()`: `acc` holds the current token reversed. -/
def pySplitWsAux : List Char → List Char → List (List Char)
  | [], acc => if acc.isEmpty then [] else [acc.reverse]
  | c :: r, acc =>
    if isSpacePy c then
      if acc.isEmpty then pySplitWsAux r [] else acc.reverse :: pySplitWsAux r []
    else pySplitWsAux r (c :: acc)

/-- `data.split()`: split on runs of whitespace, producing no empty tokens. -/
def pySplitWs (cs : List Char) : List (List Char) := pySplitWsAux cs []

/-- List comprehension `[int(x, 16) for x in tokens]`, failing (Python
`ValueError`) at the first token `int` rejects. -/
def parseBytes : List (List Char) → Option (List Int)
  | [] => some []
  | t :: r =>
    match pyIntHex t with
    | none => none
    | some v =>
      match parseBytes r with
      | none => none
      | some vs => some (v :: vs)

/-- Uppercase hexadecimal digit, as produced by the `X` format type. -/
def hexDigitU (n : Nat) : Char :=
  if n < 10 then Char.ofNat ('0'.toNat + n) else Char.ofNat ('A'.toNat + (n - 10))

/-- Fuelled digit expansion for `natToHexU`; fuel `n + 1` always suffices. -/
def natToHexAux : Nat → Nat → List Char → List Char
  | 0, _, acc => acc
  | fuel + 1, n, acc =>
    if n < 16 then hexDigitU n :: acc
    else natToHexAux fuel (n / 16) (hexDigitU (n % 16) :: acc)

/-- Uppercase hexadecimal digits of `n`, most significant first. -/
def natToHexU (n : Nat) : List Char := natToHexAux (n + 1) n []

/-- Rendering `f"{n:02X}"`: uppercase hexadecimal, zero-padded to two digits. -/
def fmt02X (n : Nat) : List Char :=
  let ds := natToHexU n
  List.replicate (2 - ds.length) '0' ++ ds

/-- Rendering `" ".join(tokens)`. -/
def joinSpace : List (List Char) → List Char
  | [] => []
  | [t] => t
  | t :: r => t ++ ' ' :: joinSpace r

/-- Line 93-94: `can_id[2:] if can_id.startswith("0x") else can_id`. -/
def stripHexMark : List Char → List Char
  | '0' :: 'x' :: r => r
  | cs => cs

/-- Distinct failure sites of the codec.  The Python code raises `ValueError`
at each of them except `indexError`, which stands for a Python `IndexError`.
In the specification's error taxonomy, `badSpecFormat` and `badDataLength` are
its `FormatError`, while `badSignalLength`, `valueTooBig` and
`byteIdxOutOfRange` are its `RangeError`. -/
inductive CodecError where
  | badSpecFormat
  | badSignalLength
  | valueTooBig
  | byteIdxOutOfRange
  | badDataLength
  | badToken
  | indexError
deriving DecidableEq, Repr

/-- Membership in the spec's `RangeError` kind: bit length outside `[1,64]`,
value exceeding the representable range, or byte index out of the 8-byte frame. -/
def isRangeError : CodecError → Bool
  | .badSignalLength => true
  | .valueTooBig => true
  | .byteIdxOutOfRange => true
  | _ => false

/-- Membership in the spec's `FormatError` kind: malformed spec text or a
byte-count mismatch. -/
def isFormatError : CodecError → Bool
  | .badSpecFormat => true
  | .badDataLength => true
  | _ => false

/-- Signal length of lines 57 and 135:
`(end_byte - start_byte) * 8 + (end_bit - start_bit) + 1` computed on the
0-based byte indexes (arguments are the raw 1-based regex values). -/
def signalLengthI (sb sbit eb ebit : Nat) : Int :=
  (((eb : Int) - 1) - ((sb : Int) - 1)) * 8 + ((ebit : Int) - (sbit : Int)) + 1

/-- Starting absolute bit position of lines 72 and 139:
`start_byte * 8 + start_bit` on the 0-based byte index (argument `sb` is the
raw 1-based regex value). -/
def basePosI (sb sbit : Nat) : Int :=
  ((sb : Int) - 1) * 8 + (sbit : Int)

/-- Loop of `generate_can_message` lines 74-87: for each signal bit `i` (the
counter `n` is the number of iterations left), if `value` has bit `i` set,
compute byte `p / 8` and bit `p % 8` of the running absolute position
`p = base + i` (the source's `current_bit_pos`), fail when the byte index
reaches 8, and otherwise OR the bit into the frame. -/
def pack_loop (value : Nat) (base : Int) :
    List Nat → Nat → Nat → Except CodecError (List Nat)
  | f, _, 0 => .ok f
  | f, i, n + 1 =>
    if value.testBit i then
      if 8 ≤ (base + (i : Int)) / 8 then .error .byteIdxOutOfRange
      else
        match pyModifyByte f ((base + (i : Int)) / 8)
            (fun b => b ||| (1 <<< ((base + (i : Int)) % 8).toNat)) with
        | some f2 => pack_loop value base f2 (i + 1) n
        | none => .error .indexError
    else pack_loop value base f (i + 1) n

/-- `TesterSignal.generate_can_message` (lines 24-102): regex-parse the signal
spec, range-check the bit length and the value, pack the value bit by bit into
an 8-byte zero frame, and format the `tcans` command text. -/
def generate_can_message (s : String) : Except CodecError String :=
  match matchPackSpec s.data with
  | none => .error .badSpecFormat
  | some ps =>
    let signalLength : Int := signalLengthI ps.startByte ps.startBit ps.endByte ps.endBit
    if signalLength ≤ 0 ∨ 64 < signalLength then .error .badSignalLength
    else
      let maxValue : Nat := (1 <<< signalLength.toNat) - 1
      if maxValue < ps.value then .error .valueTooBig
      else
        match pack_loop ps.value (basePosI ps.startByte ps.startBit)
            (List.replicate 8 0) 0 signalLength.toNat with
        | .error e => .error e
        | .ok f =>
          .ok ("tcans " ++ String.mk (stripHexMark ps.canId) ++ "," ++
               String.mk (joinSpace (f.map fmt02X)))

/-- Loop of `decode_can_message` lines 138-152: for each signal bit `i`, locate
the frame bit at the running absolute position, failing when the byte index
reaches 8, and OR `1 << i` into the accumulator when that frame bit is set. -/
def decode_loop (bytes : List Int) (base : Int) :
    Nat → Nat → Nat → Except CodecError Nat
  | acc, _, 0 => .ok acc
  | acc, i, n + 1 =>
    if 8 ≤ (base + (i : Int)) / 8 then .error .byteIdxOutOfRange
    else
      match pyGetInt bytes ((base + (i : Int)) / 8) with
      | some b =>
        if intTestBit b ((base + (i : Int)) % 8).toNat then
          decode_loop bytes base (acc ||| (1 <<< i)) (i + 1) n
        else decode_loop bytes base acc (i + 1) n
      | none => .error .indexError

set_option linter.unusedVariables false in
/-- `TesterSignal.decode_can_message` (lines 104-160): regex-parse the range
spec, parse the space-separated byte tokens, require exactly 8 of them, then
extract the signal value bit by bit.  The `can_id` argument is accepted but
never read. -/
def decode_can_message (can_id : String) (data : String) (signal_spec : String) :
    Except CodecError Nat :=
  match matchExtractSpec signal_spec.data with
  | none => .error .badSpecFormat
  | some es =>
    match parseBytes (pySplitWs data.data) with
    | none => .error .badToken
    | some bytes =>
      if bytes.length ≠ 8 then .error .badDataLength
      else
        decode_loop bytes (basePosI es.startByte es.startBit) 0 0
          (signalLengthI es.startByte es.startBit es.endByte es.endBit).toNat

/-- Bit `p % 8` of frame byte `p / 8` (0 outside the frame): the frame bit at
absolute bit position `p`. -/
def frameBit (f : List Nat) (p : Nat) : Bool := (f.getD (p / 8) 0).testBit (p % 8)

/-- Field separation of one CSV record at every occurrence of the delimiter;
`acc` holds the current field reversed. -/
def splitOnCharAux (d : Char) : List Char → List Char → List (List Char)
  | [], acc => [acc.reverse]
  | c :: r, acc =>
    if c = d then acc.reverse :: splitOnCharAux d r []
    else splitOnCharAux d r (c :: acc)

/-- Field separation of one CSV record at every occurrence of the delimiter. -/
def splitOnChar (d : Char) (cs : List Char) : List (List Char) :=
  splitOnCharAux d cs []

/-- Line iteration of a text file: pieces between `'\n'` characters, with no
empty piece after a trailing newline. -/
def splitLinesPy (cs : List Char) : List (List Char) :=
  let ls := splitOnChar '\n' cs
  if ls.getLast? = some [] then ls.dropLast else ls

/-- Record produced by `csv.reader` for one line: the empty line yields the
empty record, any other line is split at the delimiter.  (Quoting, which the
loader's contract never exercises, is not modelled.) -/
def rowFields (d : Char) (line : List Char) : List String :=
  if line.isEmpty then [] else (splitOnChar d line).map String.mk

/-- Loop of `load_variables_from_csv` lines 200-203: keep `(row[k], row[v])`
for every row with more than `max k v` fields, in order, skipping the rest. -/
def collectRows (k v : Nat) : List (List String) → List (String × String)
  | [] => []
  | r :: rest =>
    if max k v < r.length then (r.getD k "", r.getD v "") :: collectRows k v rest
    else collectRows k v rest

/-- `TemplateEngine.load_variables_from_csv` (lines 169-206), applied to the
file's text: detect the delimiter from the first line (line 189-193), split
the text into delimiter-separated rows, skip the header row when configured
(line 197-198; `next(reader)` on an empty file raises `StopIteration`,
modelled as `none`), and collect the key/value pairs. -/
def load_variables_from_csv (content : List Char) (key_column value_column : Nat)
    (has_header : Bool) : Option (List (String × String)) :=
  let sample := content.takeWhile (fun c => c ≠ '\n')
  let delim := if sample.contains ';' then ';' else ','
  let rows := (splitLinesPy content).map (rowFields delim)
  if has_header then
    match rows with
    | [] => none
    | _ :: rest => some (collectRows key_column value_column rest)
  else some (collectRows key_column value_column rows)

/-- Reading of the spec's DataTable loader contract, written from its words:
read one line, use semicolon as the delimiter if that line contains one and
comma otherwise; skip exactly one header row when configured with a header;
for each subsequent row with at least `max(key_column, value_column) + 1`
columns append `(row[key_column], row[value_column])` in file order, silently
skipping shorter rows. -/
def loadClaimModel (content : List Char) (key_column value_column : Nat)
    (has_header : Bool) : Option (List (String × String)) :=
  let firstLn := content.takeWhile (fun c => c ≠ '\n')
  let delim := if firstLn.contains ';' then ';' else ','
  let allRows := (splitLinesPy content).map (rowFields delim)
  let bodyRows := if has_header then allRows.drop 1 else allRows
  if has_header && allRows.isEmpty then none
  else
    some (bodyRows.filterMap (fun r =>
      if max key_column value_column + 1 ≤ r.length then
        some (r.getD key_column "", r.getD value_column "")
      else none))

example : generate_can_message "0x261,1.0-2.1=0x23A" =
    .ok "tcans 261,3A 02 00 00 00 00 00 00" := rfl

example : generate_can_message "0x261,1.0-1.0=0x2" = .error .valueTooBig := rfl

example : generate_can_message "0x1,9.0-9.0=0x1" = .error .byteIdxOutOfRange := rfl

example : generate_can_message "0x1,8.7-9.0=0x1" =
    .ok "tcans 1,00 00 00 00 00 00 00 80" := rfl

example : generate_can_message "0x1,1.7-2.0=0x3" =
    .ok "tcans 1,80 01 00 00 00 00 00 00" := rfl

example : generate_can_message "0x1,1.0-1.0=0x1!!!" =
    .ok "tcans 1,01 00 00 00 00 00 00 00" := rfl

example : generate_can_message "0x1,0.0-0.7=0x1" =
    .ok "tcans 1,00 00 00 00 00 00 00 01" := rfl

example : decode_can_message "0x261" "3A 02 00 00 00 00 00 00" "1.0-2.1" = .ok 570 := rfl

example : decode_can_message "x" "00 00 00 00 00 00 00 00" "9.0-9.0" =
    .error .byteIdxOutOfRange := rfl

example : decode_can_message "x" "00 00 00 00 00 00 00 00" "2.0-1.0" = .ok 0 := rfl

example : decode_can_message "x" "00 00 00 00 00 00 00" "1.0-1.0" =
    .error .badDataLength := rfl

example : load_variables_from_csv "k,v\na,1\nb,2".data 0 1 true =
    some [("a", "1"), ("b", "2")] := rfl

example : load_variables_from_csv "k,v\na,1\nb,2\nc".data 0 1 true =
    some [("a", "1"), ("b", "2")] := rfl

example : load_variables_from_csv "k;v\na;1\nb;2".data 0 1 true =
    some [("a", "1"), ("b", "2")] := rfl

/-! Helper lemmas about the embedded Python primitives. -/

theorem boolEqOfIff {a b : Bool} (h : a = true ↔ b = true) : a = b := by
  cases a <;> cases b <;> simp_all

theorem getD_set_self (l : List Nat) (k v : Nat) (h : k < l.length) :
    (l.set k v).getD k 0 = v := by
  rw [List.getD_eq_getElem?_getD, List.getElem?_set_self h]
  rfl

theorem getD_set_ne (l : List Nat) (k j v : Nat) (h : k ≠ j) :
    (l.set k v).getD j 0 = l.getD j 0 := by
  rw [List.getD_eq_getElem?_getD, List.getElem?_set_ne h, ← List.getD_eq_getElem?_getD]

theorem getD_replicate (n j : Nat) : (List.replicate n (0 : Nat)).getD j 0 = 0 := by
  induction n generalizing j with
  | zero => rfl
  | succ n ih =>
    cases j with
    | zero => rfl
    | succ j => simp [List.replicate_succ, List.getD, ih j]

theorem getD_of_length_le {α : Type} [Inhabited α] (l : List α) (k : Nat) (d : α)
    (h : l.length ≤ k) : l.getD k d = d := by
  rw [List.getD_eq_getElem?_getD, List.getElem?_eq_none h]
  rfl

theorem getD_mem_nat (l : List Nat) (k : Nat) (h : k < l.length) : l.getD k 0 ∈ l := by
  rw [List.getD_eq_getElem?_getD, List.getElem?_eq_getElem h]
  exact List.getElem_mem h

theorem natCast_div8 (m : Nat) : ((m : Int)) / 8 = ((m / 8 : Nat) : Int) := by omega

theorem natCast_mod8_toNat (m : Nat) : (((m : Int)) % 8).toNat = m % 8 := by omega

theorem pyIndex_natCast (len k : Nat) (h : k < len) : pyIndex len (k : Int) = some k := by
  unfold pyIndex
  rw [if_pos (Int.natCast_nonneg k), if_pos (by omega), Int.toNat_natCast]

theorem pyIndex_some_of_small {len : Nat} {i : Int} (h1 : -(len : Int) ≤ i)
    (h2 : i < (len : Int)) : ∃ k, pyIndex len i = some k ∧ k < len := by
  unfold pyIndex
  by_cases h0 : 0 ≤ i
  · exact ⟨i.toNat, by rw [if_pos h0, if_pos h2], by omega⟩
  · refine ⟨(i + len).toNat, ?_, by omega⟩
    rw [if_neg h0, if_pos (by omega)]

theorem pyModifyByte_natCast (l : List Nat) (k : Nat) (g : Nat → Nat) (h : k < l.length) :
    pyModifyByte l (k : Int) g = some (l.set k (g (l.getD k 0))) := by
  unfold pyModifyByte
  rw [pyIndex_natCast l.length k h]

theorem pyModifyByte_some {l : List Nat} {i : Int} (g : Nat → Nat)
    (h1 : -(l.length : Int) ≤ i) (h2 : i < (l.length : Int)) :
    ∃ l2, pyModifyByte l i g = some l2 ∧ l2.length = l.length := by
  unfold pyModifyByte
  obtain ⟨k, hk, _⟩ := pyIndex_some_of_small h1 h2
  exact ⟨_, by rw [hk], List.length_set l k _⟩

theorem pyGetInt_natCast (l : List Int) (k : Nat) (h : k < l.length) :
    pyGetInt l (k : Int) = some (l.getD k 0) := by
  unfold pyGetInt
  rw [pyIndex_natCast l.length k h]

theorem intTestBit_natCast (n : Nat) (i : Nat) :
    intTestBit (n : Int) i = n.testBit i := by
  unfold intTestBit
  rw [if_pos (Int.natCast_nonneg n), Int.toNat_natCast]

theorem decode_loop_error_mem (bytes : List Int) (base : Int) :
    ∀ (n i acc : Nat) (e : CodecError), decode_loop bytes base acc i n = .error e →
      e = CodecError.byteIdxOutOfRange ∨ e = CodecError.indexError := by
  intro n
  induction n with
  | zero => intro i acc e h; simp [decode_loop] at h
  | succ n ih =>
    intro i acc e h
    rw [decode_loop] at h
    by_cases h8 : 8 ≤ (base + (i : Int)) / 8
    · rw [if_pos h8] at h
      exact Or.inl (by injection h with h2; exact h2.symm)
    · rw [if_neg h8] at h
      split at h
      · split at h
        · exact ih _ _ _ h
        · exact ih _ _ _ h
      · exact Or.inr (by injection h with h2; exact h2.symm)

theorem pack_loop_overflow (value : Nat) (base : Int) (hbase : -8 ≤ base) :
    ∀ (n i : Nat) (f : List Nat), f.length = 8 →
      ((∃ j, i ≤ j ∧ j < i + n ∧ value.testBit j = true ∧ 64 ≤ base + (j : Int)) →
          pack_loop value base f i n = .error .byteIdxOutOfRange) ∧
        ((∀ j, i ≤ j → j < i + n → value.testBit j = true → base + (j : Int) < 64) →
          ∃ g, pack_loop value base f i n = .ok g ∧ g.length = 8) := by
  intro n
  induction n with
  | zero =>
    intro i f hf
    constructor
    · rintro ⟨j, h1, h2, -, -⟩; omega
    · intro _; exact ⟨f, rfl, hf⟩
  | succ n ih =>
    intro i f hf
    by_cases hb : value.testBit i = true
    · by_cases h64 : 64 ≤ base + (i : Int)
      · have h8 : 8 ≤ (base + (i : Int)) / 8 := by omega
        constructor
        · intro _
          rw [pack_loop, if_pos hb, if_pos h8]
        · intro hall
          exact absurd (hall i le_rfl (by omega) hb) (by omega)
      · have h8 : ¬ 8 ≤ (base + (i : Int)) / 8 := by omega
        obtain ⟨f2, hm, hlen2⟩ :=
          @pyModifyByte_some f ((base + (i : Int)) / 8)
            (fun x => x ||| (1 <<< ((base + (i : Int)) % 8).toNat))
            (by rw [hf]; omega) (by rw [hf]; omega)
        have step : pack_loop value base f i (n + 1) = pack_loop value base f2 (i + 1) n := by
          rw [pack_loop, if_pos hb, if_neg h8, hm]
        obtain ⟨iha, ihb⟩ := ih (i + 1) f2 (hlen2.trans hf)
        constructor
        · rintro ⟨j, h1, h2, h3, h4⟩
          rw [step]
          exact iha ⟨j, by omega, by omega, h3, h4⟩
        · intro hall
          rw [step]
          exact ihb (fun j a c d => hall j (by omega) (by omega) d)
    · have hb' : value.testBit i = false := by simpa using hb
      have step : pack_loop value base f i (n + 1) = pack_loop value base f (i + 1) n := by
        rw [pack_loop, if_neg (by simp [hb'])]
      obtain ⟨iha, ihb⟩ := ih (i + 1) f hf
      constructor
      · rintro ⟨j, h1, h2, h3, h4⟩
        rw [step]
        refine iha ⟨j, ?_, by omega, h3, h4⟩
        rcases Nat.eq_or_lt_of_le h1 with h | h
        · rw [← h, hb'] at h3; cases h3
        · omega
      · intro hall
        rw [step]
        exact ihb (fun j a c d => hall j (by omega) (by omega) d)

theorem pack_loop_char (value b : Nat) :
    ∀ (n i : Nat) (f : List Nat), f.length = 8 →
      (∀ j, i ≤ j → j < i + n → value.testBit j = true → b + j < 64) →
      ∃ g, pack_loop value (b : Int) f i n = .ok g ∧ g.length = 8 ∧
        ((∀ x ∈ f, x < 256) → ∀ x ∈ g, x < 256) ∧
        ∀ j t, j < 8 → t < 8 →
          ((g.getD j 0).testBit t = true ↔
            ((f.getD j 0).testBit t = true ∨
              (b ≤ 8 * j + t ∧ i ≤ 8 * j + t - b ∧ 8 * j + t - b < i + n ∧
               value.testBit (8 * j + t - b) = true))) := by
  intro n
  induction n with
  | zero =>
    intro i f hf _
    refine ⟨f, rfl, hf, fun h => h, fun j t _ _ => ?_⟩
    constructor
    · exact fun h => Or.inl h
    · rintro (h | ⟨h1, h2, h3, h4⟩)
      · exact h
      · omega
  | succ n ih =>
    intro i f hf hcond
    by_cases hb : value.testBit i = true
    · have hpos : b + i < 64 := hcond i le_rfl (by omega) hb
      have hk8 : (b + i) / 8 < 8 := by omega
      have hm8 : (b + i) % 8 < 8 := by omega
      have hdiv : ((b : Int) + (i : Int)) / 8 = (((b + i) / 8 : Nat) : Int) := by omega
      have hmod : (((b : Int) + (i : Int)) % 8).toNat = (b + i) % 8 := by omega
      have h8 : ¬ 8 ≤ ((b : Int) + (i : Int)) / 8 := by omega
      have hklen : (b + i) / 8 < f.length := by rw [hf]; exact hk8
      have step : pack_loop value (b : Int) f i (n + 1) =
          pack_loop value (b : Int)
            (f.set ((b + i) / 8)
              (f.getD ((b + i) / 8) 0 ||| 1 <<< ((b + i) % 8))) (i + 1) n := by
        rw [pack_loop, if_pos hb, if_neg h8, hdiv, hmod,
          pyModifyByte_natCast f ((b + i) / 8) _ hklen]
      set f2 : List Nat :=
        f.set ((b + i) / 8) (f.getD ((b + i) / 8) 0 ||| 1 <<< ((b + i) % 8)) with hf2
      have hf2len : f2.length = 8 := by rw [hf2, List.length_set, hf]
      have hchar2 : ∀ j t, j < 8 → t < 8 →
          ((f2.getD j 0).testBit t = true ↔
            ((f.getD j 0).testBit t = true ∨ (j = (b + i) / 8 ∧ t = (b + i) % 8))) := by
        intro j t hj ht
        by_cases hjk : j = (b + i) / 8
        · subst hjk
          rw [hf2, getD_set_self _ _ _ hklen, Nat.one_shiftLeft, Nat.testBit_lor,
            Nat.testBit_two_pow]
          by_cases htm : t = (b + i) % 8
          · simp [htm]
          · have htm2 : ¬ (b + i) % 8 = t := fun h => htm h.symm
            simp [htm, htm2]
        · rw [hf2, getD_set_ne _ _ _ _ (fun h => hjk h.symm)]
          simp [hjk]
      obtain ⟨g, hg, hglen, hg256, hgchar⟩ :=
        ih (i + 1) f2 hf2len (fun j a c d => hcond j (by omega) (by omega) d)
      refine ⟨g, by rw [step, hg], hglen, ?_, ?_⟩
      · intro h256 x hx
        refine hg256 ?_ x hx
        intro y hy
        rcases List.mem_or_eq_of_mem_set hy with hmem | hEq
        · exact h256 y hmem
        · rw [hEq, Nat.one_shiftLeft]
          have h1 : f.getD ((b + i) / 8) 0 < 2 ^ 8 :=
            h256 _ (getD_mem_nat f ((b + i) / 8) hklen)
          have h2 : 2 ^ ((b + i) % 8) < 2 ^ 8 :=
            Nat.pow_lt_pow_right (by omega) hm8
          exact Nat.or_lt_two_pow h1 h2
      · intro j t hj ht
        rw [hgchar j t hj ht, hchar2 j t hj ht]
        constructor
        · rintro ((hf0 | ⟨hjk, htm⟩) | ⟨h1, h2, h3, h4⟩)
          · exact Or.inl hf0
          · have hx : 8 * j + t = b + i := by omega
            refine Or.inr ⟨by omega, by omega, by omega, ?_⟩
            have : 8 * j + t - b = i := by omega
            rw [this]; exact hb
          · exact Or.inr ⟨h1, by omega, by omega, h4⟩
        · rintro (hf0 | ⟨h1, h2, h3, h4⟩)
          · exact Or.inl (Or.inl hf0)
          · by_cases hxi : 8 * j + t = b + i
            · exact Or.inl (Or.inr ⟨by omega, by omega⟩)
            · exact Or.inr ⟨h1, by omega, by omega, h4⟩
    · have hb' : value.testBit i = false := by simpa using hb
      have step : pack_loop value (b : Int) f i (n + 1) =
          pack_loop value (b : Int) f (i + 1) n := by
        rw [pack_loop, if_neg (by simp [hb'])]
      obtain ⟨g, hg, hglen, hg256, hgchar⟩ :=
        ih (i + 1) f hf (fun j a c d => hcond j (by omega) (by omega) d)
      refine ⟨g, by rw [step, hg], hglen, hg256, ?_⟩
      intro j t hj ht
      rw [hgchar j t hj ht]
      constructor
      · rintro (hf0 | ⟨h1, h2, h3, h4⟩)
        · exact Or.inl hf0
        · exact Or.inr ⟨h1, by omega, by omega, h4⟩
      · rintro (hf0 | ⟨h1, h2, h3, h4⟩)
        · exact Or.inl hf0
        · refine Or.inr ⟨h1, ?_, by omega, h4⟩
          rcases Nat.eq_or_lt_of_le h2 with h | h
          · rw [← h, hb'] at h4; cases h4
          · omega

theorem pack_zero_char (value b len : Nat)
    (hcond : ∀ j, j < len → value.testBit j = true → b + j < 64) :
    ∃ g, pack_loop value (b : Int) (List.replicate 8 0) 0 len = .ok g ∧ g.length = 8 ∧
      (∀ x ∈ g, x < 256) ∧
      ∀ p, p < 64 →
        (frameBit g p = true ↔ (b ≤ p ∧ p - b < len ∧ value.testBit (p - b) = true)) := by
  obtain ⟨g, hg, hglen, hg256, hchar⟩ :=
    pack_loop_char value b len 0 (List.replicate 8 0) (by simp)
      (fun j a c d => hcond j (by omega) d)
  refine ⟨g, hg, hglen,
    hg256 (fun x hx => by rw [List.eq_of_mem_replicate hx]; omega), ?_⟩
  intro p hp
  have h := hchar (p / 8) (p % 8) (by omega) (by omega)
  have hpx : 8 * (p / 8) + p % 8 = p := by omega
  rw [hpx] at h
  rw [frameBit, h, getD_replicate]
  simp only [Nat.zero_testBit, Bool.false_eq_true, false_or, Nat.zero_le, true_and,
    Nat.zero_add]

theorem decode_loop_char (bytes : List Int) (b : Nat) (hlen : bytes.length = 8) :
    ∀ (n i acc : Nat), b + i + n ≤ 64 →
      ∃ r, decode_loop bytes (b : Int) acc i n = .ok r ∧
        ∀ t, (r.testBit t = true ↔
          (acc.testBit t = true ∨
            (i ≤ t ∧ t < i + n ∧
             intTestBit (bytes.getD ((b + t) / 8) 0) ((b + t) % 8) = true))) := by
  intro n
  induction n with
  | zero =>
    intro i acc _
    refine ⟨acc, rfl, fun t => ?_⟩
    constructor
    · exact fun h => Or.inl h
    · rintro (h | ⟨h1, h2, _⟩)
      · exact h
      · omega
  | succ n ih =>
    intro i acc hle
    have hdiv : ((b : Int) + (i : Int)) / 8 = (((b + i) / 8 : Nat) : Int) := by omega
    have hmod : (((b : Int) + (i : Int)) % 8).toNat = (b + i) % 8 := by omega
    have h8 : ¬ 8 ≤ ((b : Int) + (i : Int)) / 8 := by omega
    have hklen : (b + i) / 8 < bytes.length := by rw [hlen]; omega
    have hget : pyGetInt bytes (((b : Int) + (i : Int)) / 8) =
        some (bytes.getD ((b + i) / 8) 0) := by
      rw [hdiv, pyGetInt_natCast bytes ((b + i) / 8) hklen]
    by_cases hbit : intTestBit (bytes.getD ((b + i) / 8) 0) ((b + i) % 8) = true
    · have step : decode_loop bytes (b : Int) acc i (n + 1) =
          decode_loop bytes (b : Int) (acc ||| 1 <<< i) (i + 1) n := by
        rw [decode_loop, if_neg h8]
        simp only [hget, hmod, hbit, if_true]
      obtain ⟨r, hr, hrchar⟩ := ih (i + 1) (acc ||| 1 <<< i) (by omega)
      have hacc : ∀ u, ((acc ||| 1 <<< i).testBit u = true ↔
          (acc.testBit u = true ∨ u = i)) := by
        intro u
        rw [Nat.one_shiftLeft, Nat.testBit_lor, Nat.testBit_two_pow]
        by_cases hui : i = u
        · simp [hui]
        · have hui2 : ¬ u = i := fun h => hui h.symm
          simp [hui, hui2]
      refine ⟨r, by rw [step, hr], fun t => ?_⟩
      rw [hrchar t, hacc t]
      constructor
      · rintro ((h | rfl) | ⟨h1, h2, h3⟩)
        · exact Or.inl h
        · exact Or.inr ⟨le_rfl, by omega, hbit⟩
        · exact Or.inr ⟨by omega, by omega, h3⟩
      · rintro (h | ⟨h1, h2, h3⟩)
        · exact Or.inl (Or.inl h)
        · by_cases hti : t = i
          · exact Or.inl (Or.inr hti)
          · exact Or.inr ⟨by omega, by omega, h3⟩
    · have hbit' : intTestBit (bytes.getD ((b + i) / 8) 0) ((b + i) % 8) = false := by
        simpa using hbit
      have step : decode_loop bytes (b : Int) acc i (n + 1) =
          decode_loop bytes (b : Int) acc (i + 1) n := by
        rw [decode_loop, if_neg h8]
        simp only [hget, hmod, hbit', Bool.false_eq_true, if_false]
      obtain ⟨r, hr, hrchar⟩ := ih (i + 1) acc (by omega)
      refine ⟨r, by rw [step, hr], fun t => ?_⟩
      rw [hrchar t]
      constructor
      · rintro (h | ⟨h1, h2, h3⟩)
        · exact Or.inl h
        · exact Or.inr ⟨by omega, by omega, h3⟩
      · rintro (h | ⟨h1, h2, h3⟩)
        · exact Or.inl h
        · refine Or.inr ⟨?_, by omega, h3⟩
          rcases Nat.eq_or_lt_of_le h1 with h | h
          · exfalso; rw [← h] at h3; rw [h3] at hbit'; cases hbit'
          · omega

theorem fmt02X_props : ∀ n, n < 256 →
    pyIntHex (fmt02X n) = some ((n : Nat) : Int) ∧ (fmt02X n).length = 2 ∧
    fmt02X n ≠ [] ∧ (∀ c ∈ fmt02X n, isSpacePy c = false) ∧
    (∀ c ∈ fmt02X n, c ∈ "0123456789ABCDEF".data) := by decide

theorem pySplitWsAux_chunk : ∀ (t rest acc : List Char),
    (∀ c ∈ t, isSpacePy c = false) →
    pySplitWsAux (t ++ rest) acc = pySplitWsAux rest (t.reverse ++ acc) := by
  intro t
  induction t with
  | nil => intro rest acc _; simp
  | cons c t ih =>
    intro rest acc hns
    have hc : isSpacePy c = false := hns c (by simp)
    simp only [List.cons_append, pySplitWsAux, hc, Bool.false_eq_true, if_false]
    show pySplitWsAux (t ++ rest) (c :: acc) = pySplitWsAux rest ((c :: t).reverse ++ acc)
    rw [ih rest (c :: acc) (fun d hd => hns d (by simp [hd]))]
    simp [List.reverse_cons, List.append_assoc]

theorem pySplitWs_joinSpace : ∀ toks : List (List Char),
    (∀ t ∈ toks, t ≠ [] ∧ ∀ c ∈ t, isSpacePy c = false) →
    pySplitWs (joinSpace toks) = toks := by
  intro toks
  induction toks with
  | nil => intro _; rfl
  | cons t r ih =>
    intro h
    obtain ⟨hne, hns⟩ := h t (by simp)
    cases r with
    | nil =>
      have hch := pySplitWsAux_chunk t [] [] hns
      rw [List.append_nil] at hch
      show pySplitWsAux t [] = [t]
      rw [hch]
      simp [pySplitWsAux, List.isEmpty_iff, hne]
    | cons t2 r2 =>
      show pySplitWsAux (t ++ ' ' :: joinSpace (t2 :: r2)) [] = t :: t2 :: r2
      rw [pySplitWsAux_chunk t _ [] hns]
      have hsp : isSpacePy ' ' = true := rfl
      have hte : (t.reverse ++ []).isEmpty = false := by
        simp [List.isEmpty_iff, hne]
      simp only [pySplitWsAux, hsp, if_true, hte, Bool.false_eq_true, if_false]
      have hrev : (t.reverse ++ []).reverse = t := by simp
      rw [hrev]
      exact congrArg (List.cons t) (ih (fun u hu => h u (by simp [hu])))

theorem parseBytes_fmt02X : ∀ f : List Nat, (∀ x ∈ f, x < 256) →
    parseBytes (f.map fmt02X) = some (f.map (fun (n : Nat) => (n : Int))) := by
  intro f
  induction f with
  | nil => intro _; rfl
  | cons x f ih =>
    intro h
    have hx := (fmt02X_props x (h x (by simp))).1
    simp only [List.map_cons, parseBytes, hx, ih (fun y hy => h y (by simp [hy]))]

theorem getD_map_intCast : ∀ (l : List Nat) (k : Nat),
    (l.map (fun (n : Nat) => (n : Int))).getD k 0 = ((l.getD k 0 : Nat) : Int) := by
  intro l
  induction l with
  | nil => intro k; simp [List.getD]
  | cons x l ih =>
    intro k
    cases k with
    | zero => rfl
    | succ k => simp only [List.map_cons, List.getD_cons_succ, ih k]

theorem matchPackSpec_canId (cs : List Char) (ps : ParsedSpec)
    (h : matchPackSpec cs = some ps) :
    ps.canId = '0' :: 'x' :: stripHexMark ps.canId := by
  unfold matchPackSpec at h
  cases hR : matchPackSpecR cs with
  | none => rw [hR] at h; cases h
  | some pr =>
    rw [hR] at h
    have hps : pr.1 = ps := by simpa using h
    clear h
    unfold matchPackSpecR at hR
    repeat' split at hR
    all_goals try exact Option.noConfusion hR
    injection hR with h1
    rw [← hps, ← h1]
    rfl

theorem pack_loop_error_mem (value : Nat) (base : Int) :
    ∀ (n i : Nat) (f : List Nat) (e : CodecError), pack_loop value base f i n = .error e →
      e = CodecError.byteIdxOutOfRange ∨ e = CodecError.indexError := by
  intro n
  induction n with
  | zero => intro i f e h; simp [pack_loop] at h
  | succ n ih =>
    intro i f e h
    rw [pack_loop] at h
    split at h
    · split at h
      · exact Or.inl (by injection h with h2; exact h2.symm)
      · split at h
        · exact ih _ _ _ h
        · exact Or.inr (by injection h with h2; exact h2.symm)
    · exact ih _ _ _ h

/-! Claim theorems. -/

/-- C9: the value returned by extraction is independent of the `can_id`
argument — for every frame data string and extract spec, any two `can_id`
strings give the same result of `decode_can_message` (the identifier is never
read during extraction). -/
theorem c9_extract_ignores_can_id :
    ∀ (cid1 cid2 data spec : String),
      decode_can_message cid1 data spec = decode_can_message cid2 data spec :=
  fun _ _ _ _ => rfl

/-- C10: extraction performs no bit-length range validation — for every
extract spec whose computed `signal_length` is nonpositive (end coordinate
preceding start), applied to a well-formed 8-byte frame, `decode_can_message`
returns 0 without raising any error. -/
theorem c10_nonpositive_length_extracts_zero (cid data spec : String)
    (es : ExtractSpec) (bytes : List Int)
    (hs : matchExtractSpec spec.data = some es)
    (hb : parseBytes (pySplitWs data.data) = some bytes)
    (hlen : bytes.length = 8)
    (hneg : signalLengthI es.startByte es.startBit es.endByte es.endBit ≤ 0) :
    decode_can_message cid data spec = .ok 0 := by
  simp only [decode_can_message, hs, hb, hlen]
  rw [if_neg (by omega)]
  have hz : (signalLengthI es.startByte es.startBit es.endByte es.endBit).toNat = 0 := by
    omega
  rw [hz]
  rfl

/-- Witness for C10 at a concrete input: extract spec `2.0-1.0` (end before
start, `signal_length = -7`) on an all-zero 8-byte frame returns 0. -/
theorem c10_nonpositive_length_extracts_zero_witness :
    decode_can_message "0x1" "00 00 00 00 00 00 00 00" "2.0-1.0" = .ok 0 :=
  c10_nonpositive_length_extracts_zero "0x1" "00 00 00 00 00 00 00 00" "2.0-1.0"
    ⟨2, 0, 1, 0⟩ [0, 0, 0, 0, 0, 0, 0, 0] rfl rfl rfl (by decide)

/-- C7: with a well-formed extract spec and tokens `int` accepts, decoding
fails with the byte-count `FormatError` exactly when the parsed byte sequence
does not consist of exactly 8 bytes. -/
theorem c7_extract_requires_8_bytes (cid data spec : String)
    (es : ExtractSpec) (bytes : List Int)
    (hs : matchExtractSpec spec.data = some es)
    (hb : parseBytes (pySplitWs data.data) = some bytes) :
    (decode_can_message cid data spec = .error .badDataLength ↔ bytes.length ≠ 8) := by
  simp only [decode_can_message, hs, hb]
  by_cases h8 : bytes.length ≠ 8
  · rw [if_pos h8]
    simp [h8]
  · rw [if_neg h8]
    constructor
    · intro hcontra
      rcases decode_loop_error_mem bytes _ _ _ _ _ hcontra with h | h <;> simp at h
    · intro h
      exact absurd h h8

/-- Witness for C7 at a concrete input: a 7-byte frame string is rejected with
the byte-count error, which the spec classifies as `FormatError`. -/
theorem c7_extract_requires_8_bytes_witness :
    decode_can_message "0x1" "00 00 00 00 00 00 00" "1.0-1.0" =
      .error .badDataLength ∧ isFormatError .badDataLength = true :=
  ⟨(c7_extract_requires_8_bytes "0x1" "00 00 00 00 00 00 00" "1.0-1.0"
      ⟨1, 0, 1, 0⟩ [0, 0, 0, 0, 0, 0, 0] rfl rfl).mpr (by decide), rfl⟩

/-- Counterexample to C1 as stated: the spec `9.0-9.0` with value `0x0` is
valid in the claim's sense (`bit_length = 1` lies in `[1,64]` and
`0 ≤ 2^1 - 1`), packing succeeds and returns a frame, yet extracting with the
same byte.bit range raises the byte-index range error instead of returning the
value, because extraction checks every walked byte index against the frame
while packing only checks indexes of set bits. -/
theorem c1_roundtrip_counterexample :
    generate_can_message "0x1,9.0-9.0=0x0" = .ok "tcans 1,00 00 00 00 00 00 00 00" ∧
    signalLengthI 9 0 9 0 = 1 ∧ (0 : Nat) ≤ 2 ^ 1 - 1 ∧
    decode_can_message "0x1" "00 00 00 00 00 00 00 00" "9.0-9.0" =
      .error .byteIdxOutOfRange :=
  ⟨rfl, by decide, by decide, rfl⟩

/-- Counterexample to C2 as stated: for the spec `8.7-9.0` with value `0x1`
the bit-position walk covers absolute positions 63 and 64, and position 64
(signal bit `i = 1`) lies beyond the 8-byte frame, yet packing succeeds and
returns a frame: the overflow check only runs for signal bits that are set in
the value, and bit 1 of `0x1` is clear. -/
theorem c2_overflow_counterexample :
    generate_can_message "0x1,8.7-9.0=0x1" = .ok "tcans 1,00 00 00 00 00 00 00 80" ∧
    signalLengthI 8 7 9 0 = 2 ∧
    64 ≤ basePosI 8 7 + 1 :=
  ⟨rfl, by decide, by decide⟩

/-- Counterexample to C4 as stated: the spec `0x1,9.0-9.0=0x1` has
`bit_length = 1` inside `[1,64]` and value `1 ≤ 2^1 - 1`, so neither of the
claim's two conditions holds, yet `generate_can_message` still fails with a
`RangeError` (the packing-stage byte-index overflow), refuting the claimed
"exactly when". -/
theorem c4_rangeError_counterexample :
    generate_can_message "0x1,9.0-9.0=0x1" = .error .byteIdxOutOfRange ∧
    isRangeError .byteIdxOutOfRange = true ∧
    (1 : Int) ≤ signalLengthI 9 0 9 0 ∧ signalLengthI 9 0 9 0 ≤ 64 ∧
    (1 : Nat) ≤ 2 ^ (signalLengthI 9 0 9 0).toNat - 1 :=
  ⟨rfl, rfl, by decide, by decide, by decide⟩

/-- Counterexample to C5 as stated: the input `0x1,1.0-1.0=0x1!!!` does not
match the packing grammar read as a complete-string grammar (it has trailing
text after the value), yet it is not rejected with `FormatError` — `re.match`
anchors at the start only, the grammar-shaped head is accepted and packing
succeeds. -/
theorem c5_format_counterexample :
    fullPackGrammarMatch "0x1,1.0-1.0=0x1!!!".data = false ∧
    generate_can_message "0x1,1.0-1.0=0x1!!!" = .ok "tcans 1,01 00 00 00 00 00 00 00" :=
  ⟨rfl, rfl⟩

/-- C5 (amended): `generate_can_message` fails with the spec-format
`FormatError` exactly when no prefix of the input matches the packing grammar
(`re.match` anchors at the start of the string only); in particular every
complete-string utterance of the grammar is accepted by the matcher, so it is
never rejected on format grounds.  (As stated the claim is refuted by
`c5_format_counterexample`: a grammar-matching head with trailing garbage is
not rejected.) -/
theorem c5_format_error_iff : ∀ s : String,
    (generate_can_message s = .error .badSpecFormat ↔ matchPackSpec s.data = none) ∧
    (fullPackGrammarMatch s.data = true → matchPackSpec s.data ≠ none) := by
  intro s
  constructor
  · cases hp : matchPackSpec s.data with
    | none => simp [generate_can_message, hp]
    | some ps =>
      simp only [generate_can_message, hp]
      constructor
      · intro h
        exfalso
        split at h
        · simp at h
        · split at h
          · simp at h
          · split at h
            · rename_i e heq
              injection h with h2
              rcases pack_loop_error_mem _ _ _ _ _ _ heq with h3 | h3 <;>
                (rw [h2] at h3; simp at h3)
            · simp at h
      · intro h
        cases h
  · intro hfull hnone
    unfold fullPackGrammarMatch at hfull
    unfold matchPackSpec at hnone
    cases hR : matchPackSpecR s.data with
    | none => rw [hR] at hfull; cases hfull
    | some pr => rw [hR] at hnone; simp at hnone

/-- C4 (amended): with a parsed spec, `generate_can_message` fails at one of
the two range-validation checks (`bit_length` outside `[1,64]`, or
`value > 2^bit_length - 1`, the bound computed exactly) precisely when one of
those conditions holds; the packing stage can additionally raise the
byte-index `RangeError` on frame overflow (see `c4_rangeError_counterexample`),
so the claim's "exactly when" fails for `RangeError` as a whole. -/
theorem c4_range_checks (s : String) (ps : ParsedSpec)
    (hp : matchPackSpec s.data = some ps) :
    ((generate_can_message s = .error .badSignalLength ∨
        generate_can_message s = .error .valueTooBig) ↔
      (signalLengthI ps.startByte ps.startBit ps.endByte ps.endBit < 1 ∨
       64 < signalLengthI ps.startByte ps.startBit ps.endByte ps.endBit ∨
       2 ^ (signalLengthI ps.startByte ps.startBit ps.endByte ps.endBit).toNat - 1 <
         ps.value)) := by
  simp only [generate_can_message, hp]
  by_cases h1 : signalLengthI ps.startByte ps.startBit ps.endByte ps.endBit ≤ 0 ∨
      64 < signalLengthI ps.startByte ps.startBit ps.endByte ps.endBit
  · rw [if_pos h1]
    constructor
    · intro _
      rcases h1 with h | h
      · exact Or.inl (by omega)
      · exact Or.inr (Or.inl h)
    · intro _
      exact Or.inl rfl
  · rw [if_neg h1]
    by_cases h2 : (1 <<< (signalLengthI ps.startByte ps.startBit ps.endByte
        ps.endBit).toNat) - 1 < ps.value
    · rw [if_pos h2]
      rw [Nat.one_shiftLeft] at h2
      constructor
      · intro _
        exact Or.inr (Or.inr h2)
      · intro _
        exact Or.inr rfl
    · rw [if_neg h2]
      rw [Nat.one_shiftLeft] at h2
      split
      · rename_i e heq
        constructor
        · rintro (h | h) <;>
            (injection h with h3;
             rcases pack_loop_error_mem _ _ _ _ _ _ heq with h4 | h4 <;>
               (rw [h3] at h4; simp at h4))
        · rintro (h | h | h)
          · omega
          · omega
          · exact absurd h h2
      · constructor
        · rintro (h | h) <;> simp at h
        · rintro (h | h | h)
          · omega
          · omega
          · exact absurd h h2

/-- Witness for C4 (amended) at the claim's concrete input: the spec
`0x261,1.0-1.0=0x2` (1-bit field, value 2 with maximum representable 1) is
rejected at the range-validation stage. -/
theorem c4_range_checks_witness :
    (generate_can_message "0x261,1.0-1.0=0x2" = .error .badSignalLength ∨
     generate_can_message "0x261,1.0-1.0=0x2" = .error .valueTooBig) :=
  (c4_range_checks "0x261,1.0-1.0=0x2" ⟨'0' :: 'x' :: '2' :: '6' :: '1' :: [],
    1, 0, 1, 0, 2⟩ rfl).mpr (by decide)

theorem pyIndex_lt {len : Nat} {i : Int} {k : Nat} (h : pyIndex len i = some k) :
    k < len := by
  unfold pyIndex at h
  split at h
  · split at h
    · injection h with h2; omega
    · cases h
  · split at h
    · injection h with h2; omega
    · cases h

theorem pyModifyByte_inv {l l2 : List Nat} {i : Int} {g : Nat → Nat}
    (h : pyModifyByte l i g = some l2) :
    l2.length = l.length ∧
      ∀ x ∈ l2, x ∈ l ∨ ∃ k, k < l.length ∧ x = g (l.getD k 0) := by
  unfold pyModifyByte at h
  cases hk : pyIndex l.length i with
  | none => rw [hk] at h; cases h
  | some k =>
    rw [hk] at h
    injection h with h2
    subst h2
    refine ⟨List.length_set l k _, fun x hx => ?_⟩
    rcases List.mem_or_eq_of_mem_set hx with hm | he
    · exact Or.inl hm
    · exact Or.inr ⟨k, pyIndex_lt hk, he⟩

theorem pack_loop_bytes_lt (value : Nat) (base : Int) :
    ∀ (n i : Nat) (f g : List Nat), pack_loop value base f i n = .ok g →
      (∀ x ∈ f, x < 256) → (∀ x ∈ g, x < 256) := by
  intro n
  induction n with
  | zero =>
    intro i f g h hf
    injection h with h2
    subst h2
    exact hf
  | succ n ih =>
    intro i f g h hf
    rw [pack_loop] at h
    split at h
    · split at h
      · cases h
      · split at h
        · rename_i f2 hm
          obtain ⟨hlen2, hmem⟩ := pyModifyByte_inv hm
          refine ih (i + 1) f2 g h (fun x hx => ?_)
          rcases hmem x hx with hm2 | ⟨k, hk, he⟩
          · exact hf x hm2
          · rw [he]
            have hgd : f.getD k 0 < 2 ^ 8 := hf _ (getD_mem_nat f k hk)
            have hsh : ((base + (i : Int)) % 8).toNat < 8 := by omega
            have h2p : 2 ^ ((base + (i : Int)) % 8).toNat < 2 ^ 8 :=
              Nat.pow_lt_pow_right (by omega) hsh
            rw [Nat.one_shiftLeft]
            exact Nat.or_lt_two_pow hgd h2p
        · cases h
    · exact ih (i + 1) f g h hf

theorem pack_loop_length (value : Nat) (base : Int) :
    ∀ (n i : Nat) (f g : List Nat), pack_loop value base f i n = .ok g →
      g.length = f.length := by
  intro n
  induction n with
  | zero =>
    intro i f g h
    injection h with h2
    subst h2
    rfl
  | succ n ih =>
    intro i f g h
    rw [pack_loop] at h
    split at h
    · split at h
      · cases h
      · split at h
        · rename_i f2 hm
          exact (ih (i + 1) f2 g h).trans (pyModifyByte_inv hm).1
        · cases h
    · exact ih (i + 1) f g h

/-- C2 (amended): once a spec parses and passes both range-validation checks,
packing fails — with the byte-index `RangeError`, before any byte is written
and with no partial frame returned (the result is the bare error) — exactly
when some signal bit that is SET in the value has its absolute position at or
beyond the end of the 8-byte frame.  (As stated, the claim is refuted by
`c2_overflow_counterexample`: a walked position beyond the frame whose value
bit is clear is silently skipped, not detected.) -/
theorem c2_pack_overflow_iff (s : String) (ps : ParsedSpec)
    (hp : matchPackSpec s.data = some ps)
    (hL1 : 1 ≤ signalLengthI ps.startByte ps.startBit ps.endByte ps.endBit)
    (hL64 : signalLengthI ps.startByte ps.startBit ps.endByte ps.endBit ≤ 64)
    (hval : ps.value ≤
      2 ^ (signalLengthI ps.startByte ps.startBit ps.endByte ps.endBit).toNat - 1) :
    (generate_can_message s = .error .byteIdxOutOfRange ↔
      ∃ i, i < (signalLengthI ps.startByte ps.startBit ps.endByte ps.endBit).toNat ∧
        ps.value.testBit i = true ∧
        64 ≤ basePosI ps.startByte ps.startBit + (i : Int)) ∧
    isRangeError .byteIdxOutOfRange = true := by
  refine ⟨?_, rfl⟩
  simp only [generate_can_message, hp]
  rw [if_neg (by omega), if_neg (by rw [Nat.one_shiftLeft]; omega)]
  obtain ⟨hovfl, hok⟩ :=
    pack_loop_overflow ps.value (basePosI ps.startByte ps.startBit)
      (by unfold basePosI; omega)
      (signalLengthI ps.startByte ps.startBit ps.endByte ps.endBit).toNat 0
      (List.replicate 8 0) (by simp)
  constructor
  · intro h
    by_contra hne
    push_neg at hne
    obtain ⟨g, hg, -⟩ := hok (fun j hj1 hj2 hj3 => hne j (by omega) hj3)
    rw [hg] at h
    simp at h
  · rintro ⟨i, h1, h2, h3⟩
    rw [hovfl ⟨i, Nat.zero_le i, by omega, h2, h3⟩]

/-- Witness for C2 (amended) at a concrete input: for `0x1,9.0-9.0=0x1` signal
bit 0 is set and its absolute position 64 reaches byte index 8, so packing
fails with the byte-index `RangeError`. -/
theorem c2_pack_overflow_iff_witness :
    generate_can_message "0x1,9.0-9.0=0x1" = .error .byteIdxOutOfRange :=
  ((c2_pack_overflow_iff "0x1,9.0-9.0=0x1" ⟨'0' :: 'x' :: '1' :: [], 9, 0, 9, 0, 1⟩
      rfl (by decide) (by decide) (by decide)).1).mpr
    ⟨0, by decide, by decide, by decide⟩

/-- C3: for every signal value packed by the packing loop at a frame bit
offset `b` (the code's `start_byte*8 + start_bit` on 0-based bytes), signal
bit `i` occupies absolute frame bit position `b + i` — byte `(b+i) / 8`, bit
`(b+i) % 8`, crossing byte boundaries as needed — and every frame bit outside
`[b, b+len)` is left at zero. -/
theorem c3_bit_placement (value b len : Nat) (f : List Nat)
    (h : pack_loop value (b : Int) (List.replicate 8 0) 0 len = .ok f) :
    (∀ i, i < len → frameBit f (b + i) = value.testBit i) ∧
    (∀ p, p < 64 → (p < b ∨ b + len ≤ p) → frameBit f p = false) := by
  have hcond : ∀ j, j < len → value.testBit j = true → b + j < 64 := by
    intro j hj htb
    by_contra hge
    obtain ⟨hovfl, -⟩ :=
      pack_loop_overflow value (b : Int) (by omega) len 0 (List.replicate 8 0) (by simp)
    rw [hovfl ⟨j, Nat.zero_le j, by omega, htb, by omega⟩] at h
    cases h
  obtain ⟨g, hg, hglen, -, hchar⟩ := pack_zero_char value b len hcond
  rw [hg] at h
  injection h with hgf
  subst hgf
  constructor
  · intro i hi
    by_cases hlt : b + i < 64
    · have hch := hchar (b + i) hlt
      have hsub : b + i - b = i := by omega
      rw [hsub] at hch
      apply boolEqOfIff
      rw [hch]
      constructor
      · rintro ⟨-, -, h3⟩; exact h3
      · intro h3; exact ⟨by omega, hi, h3⟩
    · have hb0 : value.testBit i = false := by
        by_contra hne
        exact absurd (hcond i hi (by simpa using hne)) hlt
      rw [hb0, frameBit, getD_of_length_le _ _ _ (by omega)]
      exact Nat.zero_testBit _
  · intro p hp hout
    cases hfb : frameBit g p
    · rfl
    · exfalso
      obtain ⟨h1, h2, -⟩ := (hchar p hp).mp hfb
      omega

/-- Witness for C3 at the claim's concrete input: packing value `0b11` into
range `1.7-2.0` (offset `b = 7`, 2 bits) sets bit 7 of frame byte 0 (byte
value 128) and bit 0 of frame byte 1 (byte value 1), with neighbouring frame
bits clear. -/
theorem c3_bit_placement_witness :
    pack_loop 3 ((7 : Nat) : Int) (List.replicate 8 0) 0 2 =
      .ok [128, 1, 0, 0, 0, 0, 0, 0] ∧
    frameBit [128, 1, 0, 0, 0, 0, 0, 0] (7 + 0) = Nat.testBit 3 0 ∧
    frameBit [128, 1, 0, 0, 0, 0, 0, 0] (7 + 1) = Nat.testBit 3 1 ∧
    frameBit [128, 1, 0, 0, 0, 0, 0, 0] 6 = false :=
  ⟨rfl,
   (c3_bit_placement 3 7 2 [128, 1, 0, 0, 0, 0, 0, 0] rfl).1 0 (by decide),
   (c3_bit_placement 3 7 2 [128, 1, 0, 0, 0, 0, 0, 0] rfl).1 1 (by decide),
   (c3_bit_placement 3 7 2 [128, 1, 0, 0, 0, 0, 0, 0] rfl).2 6 (by decide) (by decide)⟩

/-- C6: whenever `generate_can_message` succeeds, the returned command string
is exactly the fixed token `tcans`, a space, the identifier's hex text with
its `0x` mark stripped and its digits otherwise untouched, a comma, and the 8
packed frame bytes each rendered as exactly two uppercase hexadecimal digits
separated by single spaces. -/
theorem c6_format_shape (s : String) (ps : ParsedSpec) (out : String)
    (hp : matchPackSpec s.data = some ps)
    (hout : generate_can_message s = .ok out) :
    ∃ f : List Nat,
      pack_loop ps.value (basePosI ps.startByte ps.startBit) (List.replicate 8 0) 0
        (signalLengthI ps.startByte ps.startBit ps.endByte ps.endBit).toNat = .ok f ∧
      out = "tcans " ++ String.mk (stripHexMark ps.canId) ++ "," ++
        String.mk (joinSpace (f.map fmt02X)) ∧
      f.length = 8 ∧
      (∀ x ∈ f, (fmt02X x).length = 2 ∧ ∀ c ∈ fmt02X x, c ∈ "0123456789ABCDEF".data) ∧
      ps.canId = '0' :: 'x' :: stripHexMark ps.canId := by
  have hid := matchPackSpec_canId s.data ps hp
  simp only [generate_can_message, hp] at hout
  split at hout
  · exact Except.noConfusion hout
  · split at hout
    · exact Except.noConfusion hout
    · split at hout
      · exact Except.noConfusion hout
      · rename_i f heq
        injection hout with hout2
        have h256 : ∀ x ∈ f, x < 256 :=
          pack_loop_bytes_lt _ _ _ _ _ _ heq
            (fun x hx => by rw [List.eq_of_mem_replicate hx]; omega)
        refine ⟨f, heq, hout2.symm, ?_, ?_, hid⟩
        · rw [pack_loop_length _ _ _ _ _ _ heq]
          rfl
        · intro x hx
          obtain ⟨-, hl, -, -, hdig⟩ := fmt02X_props x (h256 x hx)
          exact ⟨hl, hdig⟩

/-- Witness for C6 at the claim's concrete input: packing then formatting
`0x261,1.0-2.1=0x23A` yields the command string
`tcans 261,3A 02 00 00 00 00 00 00`. -/
theorem c6_format_shape_witness :
    ∃ f : List Nat,
      pack_loop 570 (basePosI 1 0) (List.replicate 8 0) 0
        (signalLengthI 1 0 2 1).toNat = .ok f ∧
      "tcans 261,3A 02 00 00 00 00 00 00" =
        "tcans " ++ String.mk (stripHexMark ('0' :: 'x' :: '2' :: '6' :: '1' :: [])) ++
        "," ++ String.mk (joinSpace (f.map fmt02X)) ∧
      f.length = 8 ∧
      (∀ x ∈ f, (fmt02X x).length = 2 ∧ ∀ c ∈ fmt02X x, c ∈ "0123456789ABCDEF".data) ∧
      ('0' :: 'x' :: '2' :: '6' :: '1' :: [] : List Char) =
        '0' :: 'x' :: stripHexMark ('0' :: 'x' :: '2' :: '6' :: '1' :: []) :=
  c6_format_shape "0x261,1.0-2.1=0x23A" ⟨'0' :: 'x' :: '2' :: '6' :: '1' :: [], 1, 0, 2, 1, 570⟩
    "tcans 261,3A 02 00 00 00 00 00 00" rfl rfl

/-- C1 (amended): for every valid signal spec — `start_byte ≥ 1` (1-based
byte coordinate), `bit_length` in `[1,64]`, `value ≤ 2^bit_length - 1` — WHOSE
BIT RANGE LIES WITHIN THE 8-BYTE FRAME (`(start_byte-1)*8 + start_bit +
bit_length ≤ 64`, the condition `c1_roundtrip_counterexample` shows is
needed), packing produces a command whose frame part, decoded with the same
byte.bit range, recovers exactly the original value. -/
theorem c1_roundtrip (packStr extractStr cid : String) (ps : ParsedSpec)
    (hp : matchPackSpec packStr.data = some ps)
    (he : matchExtractSpec extractStr.data =
      some ⟨ps.startByte, ps.startBit, ps.endByte, ps.endBit⟩)
    (hsb : 1 ≤ ps.startByte)
    (hL1 : 1 ≤ signalLengthI ps.startByte ps.startBit ps.endByte ps.endBit)
    (hL64 : signalLengthI ps.startByte ps.startBit ps.endByte ps.endBit ≤ 64)
    (hval : ps.value ≤
      2 ^ (signalLengthI ps.startByte ps.startBit ps.endByte ps.endBit).toNat - 1)
    (hfit : (ps.startByte - 1) * 8 + ps.startBit +
      (signalLengthI ps.startByte ps.startBit ps.endByte ps.endBit).toNat ≤ 64) :
    ∃ frameStr : String,
      generate_can_message packStr =
        .ok ("tcans " ++ String.mk (stripHexMark ps.canId) ++ "," ++ frameStr) ∧
      decode_can_message cid frameStr extractStr = .ok ps.value := by
  set L := signalLengthI ps.startByte ps.startBit ps.endByte ps.endBit with hLdef
  set b : Nat := (ps.startByte - 1) * 8 + ps.startBit with hbdef
  have hbase : basePosI ps.startByte ps.startBit = (b : Int) := by
    rw [hbdef]; unfold basePosI; omega
  have hone : 1 ≤ 2 ^ L.toNat := Nat.one_le_two_pow
  have hvlt : ps.value < 2 ^ L.toNat := by omega
  have hcond : ∀ j, j < L.toNat → ps.value.testBit j = true → b + j < 64 :=
    fun j hj _ => by omega
  obtain ⟨g, hg, hglen, hg256, hchar⟩ := pack_zero_char ps.value b L.toNat hcond
  have htoks : ∀ t ∈ g.map fmt02X, t ≠ [] ∧ ∀ c ∈ t, isSpacePy c = false := by
    intro t ht
    obtain ⟨x, hx, hfx⟩ := List.mem_map.mp ht
    obtain ⟨-, -, hne, hns, -⟩ := fmt02X_props x (hg256 x hx)
    rw [← hfx]
    exact ⟨hne, hns⟩
  have hsplit : pySplitWs (String.mk (joinSpace (g.map fmt02X))).data = g.map fmt02X := by
    show pySplitWs (joinSpace (g.map fmt02X)) = g.map fmt02X
    exact pySplitWs_joinSpace _ htoks
  have hbytes : parseBytes (g.map fmt02X) = some (g.map (fun (n : Nat) => (n : Int))) :=
    parseBytes_fmt02X g hg256
  refine ⟨String.mk (joinSpace (g.map fmt02X)), ?_, ?_⟩
  · simp only [generate_can_message, hp, ← hLdef, hbase]
    rw [if_neg (by omega), if_neg (by rw [Nat.one_shiftLeft]; omega), hg]
  · simp only [decode_can_message, he, hsplit, hbytes, ← hLdef, hbase]
    rw [if_neg (by rw [List.length_map, hglen]; omega)]
    obtain ⟨r, hr, hrchar⟩ :=
      decode_loop_char (g.map (fun (n : Nat) => (n : Int))) b
        (by rw [List.length_map, hglen]) L.toNat 0 0 (by omega)
    rw [hr]
    have hrv : r = ps.value := by
      apply Nat.eq_of_testBit_eq
      intro t
      apply boolEqOfIff
      rw [hrchar t]
      simp only [Nat.zero_testBit, Bool.false_eq_true, false_or, Nat.zero_le,
        true_and, Nat.zero_add]
      constructor
      · rintro ⟨h2, h3⟩
        rw [getD_map_intCast, intTestBit_natCast] at h3
        have hfb : frameBit g (b + t) = true := h3
        obtain ⟨-, -, hx3⟩ := (hchar (b + t) (by omega)).mp hfb
        have hsub : b + t - b = t := by omega
        rw [hsub] at hx3
        exact hx3
      · intro h3
        have htlen : t < L.toNat := by
          by_contra hge
          have hvt : ps.value < 2 ^ t :=
            lt_of_lt_of_le hvlt (Nat.pow_le_pow_right (by omega) (by omega))
          rw [Nat.testBit_lt_two_pow hvt] at h3
          cases h3
        refine ⟨htlen, ?_⟩
        rw [getD_map_intCast, intTestBit_natCast]
        have hsub : b + t - b = t := by omega
        have hfb : frameBit g (b + t) = true := by
          rw [hchar (b + t) (by omega), hsub]
          exact ⟨by omega, htlen, h3⟩
        exact hfb
    rw [hrv]

/-- Witness for C1 (amended) at a concrete input: round trip of
`0x261,1.0-2.1=0x23A` through `generate_can_message` and back through
`decode_can_message` with range `1.0-2.1` recovers 570 (= 0x23A). -/
theorem c1_roundtrip_witness :
    ∃ frameStr : String,
      generate_can_message "0x261,1.0-2.1=0x23A" =
        .ok ("tcans " ++ String.mk (stripHexMark ('0' :: 'x' :: '2' :: '6' :: '1' :: []))
          ++ "," ++ frameStr) ∧
      decode_can_message "0x261" frameStr "1.0-2.1" = .ok 570 :=
  c1_roundtrip "0x261,1.0-2.1=0x23A" "1.0-2.1" "0x261"
    ⟨'0' :: 'x' :: '2' :: '6' :: '1' :: [], 1, 0, 2, 1, 570⟩ rfl rfl (by decide)
    (by decide) (by decide) (by decide) (by decide)

theorem collectRows_eq_filterMap (k v : Nat) : ∀ rs : List (List String),
    collectRows k v rs = rs.filterMap (fun r =>
      if max k v + 1 ≤ r.length then some (r.getD k "", r.getD v "") else none) := by
  intro rs
  induction rs with
  | nil => rfl
  | cons r rest ih =>
    by_cases h : max k v < r.length
    · simp only [collectRows, if_pos h, List.filterMap_cons,
        if_pos (show max k v + 1 ≤ r.length by omega), ih]
    · simp only [collectRows, if_neg h, List.filterMap_cons,
        if_neg (show ¬ max k v + 1 ≤ r.length by omega), ih]

/-- C8: the CSV loader agrees everywhere with the specification's description
of the DataTable contract — delimiter detected from the first line (semicolon
if present, else comma), exactly one header row skipped when configured,
`(row[key], row[value])` appended in file order for rows with at least
`max(key_column, value_column) + 1` columns and shorter rows silently skipped
— and on the claim's concrete sources (header `k,v`, rows `a,1` / `b,2`, with
or without an extra one-column row `c`, and the semicolon variant) it yields
`[("a","1"), ("b","2")]`. -/
theorem c8_loader_refines_claim :
    (∀ (content : List Char) (k v : Nat) (h : Bool),
      load_variables_from_csv content k v h = loadClaimModel content k v h) ∧
    load_variables_from_csv "k,v\na,1\nb,2".data 0 1 true =
      some [("a", "1"), ("b", "2")] ∧
    load_variables_from_csv "k,v\na,1\nb,2\nc".data 0 1 true =
      some [("a", "1"), ("b", "2")] ∧
    load_variables_from_csv "k;v\na;1\nb;2".data 0 1 true =
      some [("a", "1"), ("b", "2")] := by
  refine ⟨?_, rfl, rfl, rfl⟩
  intro content k v h
  cases h
  · simp [load_variables_from_csv, loadClaimModel, collectRows_eq_filterMap]
  · simp only [load_variables_from_csv, loadClaimModel, Bool.true_and]
    generalize (splitLinesPy content).map
      (rowFields (if (content.takeWhile (fun c => c ≠ '\n')).contains ';' then ';'
        else ',')) = rows
    cases rows with
    | nil => rfl
    | cons r rest => simp [collectRows_eq_filterMap]
